import Mathlib

/-!
Shallow embedding of the bids-processor pipeline (final iteration of the
evolving server file): JavaScript values, truthiness, member access (which
throws on null/undefined), the project-id regex, the stage canonicalization
table, the XML cleaning pass `cleanProjectData`, and the lead/project
reconciler `matchLeadsWithProjects`.
-/

/-- JavaScript runtime values, as far as the program manipulates them:
undefined, null, booleans, integers, strings, arrays and plain objects
(ordered field lists). -/
inductive JsVal where
  | vUndefined : JsVal
  | vNull : JsVal
  | vBool (b : Bool) : JsVal
  | vNum (n : Int) : JsVal
  | vStr (s : String) : JsVal
  | vArr (elems : List JsVal) : JsVal
  | vObj (fields : List (String × JsVal)) : JsVal

mutual

/-- Structural equality on values, modelling strict equality `===` as the
program uses it (the compared values are primitives — strings, null,
undefined — wherever the comparison occurs). -/
def beqVal : JsVal → JsVal → Bool
  | .vUndefined, .vUndefined => true
  | .vNull, .vNull => true
  | .vBool a, .vBool b => a = b
  | .vNum a, .vNum b => a = b
  | .vStr a, .vStr b => a = b
  | .vArr xs, .vArr ys => beqList xs ys
  | .vObj fs, .vObj gs => beqFields fs gs
  | _, _ => false

def beqList : List JsVal → List JsVal → Bool
  | [], [] => true
  | x :: xs, y :: ys => beqVal x y && beqList xs ys
  | _, _ => false

def beqFields : List (String × JsVal) → List (String × JsVal) → Bool
  | [], [] => true
  | (k, v) :: fs, (k', v') :: gs => k = k' && beqVal v v' && beqFields fs gs
  | _, _ => false

end

namespace JsVal

/-- JavaScript truthiness: undefined, null, false, 0 and "" are falsy;
every array and object (including empty ones) is truthy. -/
def truthy : JsVal → Bool
  | .vUndefined => false
  | .vNull => false
  | .vBool b => b
  | .vNum n => n != 0
  | .vStr s => s ≠ ""
  | .vArr _ => true
  | .vObj _ => true

/-- A value is nullish (null or undefined): member access on it throws. -/
def nullish : JsVal → Bool
  | .vUndefined => true
  | .vNull => true
  | _ => false

/-- Total property lookup on a non-nullish base: objects look the key up,
every other base yields undefined (the program reads no built-in
properties through this path). -/
def lookupTotal : JsVal → String → JsVal
  | .vObj fs, k => ((fs.find? (fun kv => kv.1 = k)).map Prod.snd).getD .vUndefined
  | _, _ => .vUndefined

/-- Plain member access `v.k`: throws (TypeError) iff the base is null or
undefined. -/
def getF (v : JsVal) (k : String) : Except Unit JsVal :=
  if v.nullish then .error () else .ok (v.lookupTotal k)

/-- Optional-chaining member access `v?.k`: yields undefined on a nullish
base instead of throwing. -/
def getFOpt (v : JsVal) (k : String) : JsVal :=
  if v.nullish then .vUndefined else v.lookupTotal k

/-- Optional-chaining index access `v?.[0]`: undefined on a nullish base;
first element of an array (or undefined when empty); first character of a
string; property "0" of an object; undefined otherwise. -/
def optIdx0 : JsVal → JsVal
  | .vUndefined => .vUndefined
  | .vNull => .vUndefined
  | .vArr xs => xs.headD .vUndefined
  | .vStr s =>
      match s.data with
      | [] => .vUndefined
      | c :: _ => .vStr (String.mk [c])
  | .vObj fs => lookupTotal (.vObj fs) "0"
  | _ => .vUndefined

/-- Plain index access `v[0]`: throws iff the base is null or undefined. -/
def idx0 (v : JsVal) : Except Unit JsVal :=
  if v.nullish then .error () else .ok v.optIdx0

end JsVal

open JsVal

/-- Embeds `ensureArray` from the source: falsy input gives the empty
list, an array gives its elements, anything else is wrapped singly. -/
def ensureArray (v : JsVal) : List JsVal :=
  if v.truthy = false then []
  else match v with
    | .vArr xs => xs
    | _ => [v]

/-- Attempts the regex `\/(\d+)\/\d+\/?` at the head of the character
list: a slash, a maximal nonempty digit run (the capture group), a slash,
and at least one further digit. Returns the captured digit run. -/
def runAt : List Char → Option (List Char)
  | '/' :: cs =>
      let ds := cs.takeWhile Char.isDigit
      match ds, cs.dropWhile Char.isDigit with
      | [], _ => none
      | _ :: _, '/' :: d :: _ => if d.isDigit then some ds else none
      | _ :: _, _ => none
  | _ => none

/-- Left-to-right regex scan: try the pattern at each start position and
return the first capture group found, as `String.prototype.match` does. -/
def scanId : List Char → Option (List Char)
  | [] => none
  | c :: cs =>
      match runAt (c :: cs) with
      | some ds => some ds
      | none => scanId cs

/-- Embeds `extractProjectId` from the source: falsy input returns null;
a string is scanned with `\/(\d+)\/\d+\/?` and the first capture group is
returned (null when the pattern is absent); calling `.match` on a truthy
non-string throws. -/
def extractProjectId (url : JsVal) : Except Unit JsVal :=
  if url.truthy = false then .ok .vNull
  else match url with
    | .vStr s =>
        .ok (match scanId s.data with
             | some ds => .vStr (String.mk ds)
             | none => .vNull)
    | _ => .error ()

/-- Embeds the if-chain of `mapProjectStage` on string input: each listed
alias maps to its canonical code, everything else is returned unchanged. -/
def mapStageStr (s : String) : String :=
  if s = "Pre-Bid" ∨ s = "Bid Date Set" ∨ s = "Biddate Set" ∨
     s = "Schematic Design" ∨ s = "Design Development" then "Bid Date Set"
  else if s = "Open Bid" ∨ s = "SUBBIDS: ASAP" then "OB"
  else if s = "Low Bid Apparent" ∨ s = "Low Bid / Apparent" ∨
          s = "Low Bids Announced" then "LBA"
  else if s = "Post-Bid - General Contractor Award" ∨
          s = "Architectural General Contracting" ∨
          s = "General Contractor Award" then "AGC"
  else if s = "Post Bid" then "PB"
  else if s = "General Contract" ∨ s = "Construction Underway" then "GC"
  else if s = "Construction Manager" then "CM"
  else if s = "Construction Documents" ∨ s = "Pre-Design" then "CD"
  else s

/-- Embeds `mapProjectStage` from the source: falsy stages are returned
as-is; string stages go through the alias table; strict equality against
string literals is false for every other value, which therefore falls
through unchanged. This function performs no throwing operation, so it is
total. -/
def mapProjectStage (stage : JsVal) : JsVal :=
  if stage.truthy = false then stage
  else match stage with
    | .vStr s => .vStr (mapStageStr s)
    | _ => stage

/-- Cleaned contact record built by `cleanProjectData`. -/
structure Contact where
  contactId : JsVal
  name : JsVal
  email : JsVal
  phone : JsVal
  linkedin : JsVal

/-- Cleaned address record built by `cleanProjectData`. -/
structure Address where
  type : JsVal
  addressLine1 : JsVal
  addressLine2 : JsVal
  city : JsVal
  state : JsVal
  zip : JsVal
  county : JsVal

/-- Cleaned phone record built by `cleanProjectData`. -/
structure Phone where
  type : JsVal
  number : JsVal

/-- Fields shared by every cleaned company object. -/
structure CompanyBase where
  companyId : JsVal
  name : JsVal
  url : JsVal
  website : JsVal
  email : JsVal
  contacts : List Contact
  address : Option Address
  phones : List Phone

/-- A company pushed onto `prospectiveBidders`: the base fields plus the
bidding role and the rank read off the first classification entry. -/
structure Bidder where
  base : CompanyBase
  role : JsVal
  rank : JsVal

/-- A company pushed onto `projectTeam`: the base fields plus the resolved
role label. -/
structure TeamMember where
  base : CompanyBase
  role : JsVal

/-- Embeds the contact-cleaning lambda inside `getContacts`: reads the
attribute set (throwing when the contact node is nullish) and the three
single-value child elements. -/
def cleanContact (contact : JsVal) : Except Unit Contact := do
  let d ← contact.getF "$"
  let em ← contact.getF "Email"
  let ph ← contact.getF "PhoneNumber"
  let li ← contact.getF "LinkedInURL"
  pure { contactId := d.getFOpt "ContactID", name := d.getFOpt "Name",
         email := em.optIdx0, phone := ph.optIdx0, linkedin := li.optIdx0 }

/-- Maps `cleanContact` along the raw contact list. -/
def cleanContacts : List JsVal → Except Unit (List Contact)
  | [] => .ok []
  | c :: cs => do
      let x ← cleanContact c
      let xs ← cleanContacts cs
      pure (x :: xs)

/-- Embeds `getContacts` from the source: normalize
`c.Contacts?.[0]?.Contact` to a list, clean each entry, and keep only
entries whose name is truthy. -/
def getContacts (c : JsVal) : Except Unit (List Contact) := do
  let cv ← c.getF "Contacts"
  let all ← cleanContacts (ensureArray ((cv.optIdx0).getFOpt "Contact"))
  pure (all.filter (fun x => x.name.truthy))

/-- Embeds `getAddress` from the source: take the first address entry of
`c.Addresses?.[0]?.Address` if truthy, else produce no address. -/
def getAddress (c : JsVal) : Except Unit (Option Address) := do
  let av ← c.getF "Addresses"
  let addressRaw := (ensureArray ((av.optIdx0).getFOpt "Address")).headD .vUndefined
  if addressRaw.truthy = false then pure none
  else do
    let d ← addressRaw.getF "$"
    let a1 ← addressRaw.getF "AddressLine1"
    let a2 ← addressRaw.getF "AddressLine2"
    let ci ← addressRaw.getF "City"
    let st ← addressRaw.getF "StateProvince"
    let zp ← addressRaw.getF "ZipPostalCode"
    let co ← addressRaw.getF "County"
    pure (some { type := d.getFOpt "AddressType", addressLine1 := a1.optIdx0,
                 addressLine2 := a2.optIdx0, city := ci.optIdx0,
                 state := st.optIdx0, zip := zp.optIdx0, county := co.optIdx0 })

/-- Maps the phone-cleaning lambda along the raw phone list: the type is
an attribute, the number is the element's own text content `phone._`. -/
def cleanPhones : List JsVal → Except Unit (List Phone)
  | [] => .ok []
  | p :: ps => do
      let d ← p.getF "$"
      let n ← p.getF "_"
      let rest ← cleanPhones ps
      pure ({ type := d.getFOpt "PhoneType", number := n } :: rest)

/-- Embeds `getPhones` from the source. -/
def getPhones (c : JsVal) : Except Unit (List Phone) := do
  let pv ← c.getF "Phones"
  cleanPhones (ensureArray ((pv.optIdx0).getFOpt "Phone"))

/-- Embeds the optional chain
`company.ClassificationTypes?.[0]?.ClassificationType?.[0]?.$?.attr`
used for both the bidder rank and the fallback role type. -/
def classChain (company : JsVal) (attr : String) : Except Unit JsVal := do
  let a ← company.getF "ClassificationTypes"
  pure (((((a.optIdx0).getFOpt "ClassificationType").optIdx0).getFOpt "$").getFOpt attr)

/-- Embeds the base company object built before classification. -/
def buildBase (company : JsVal) : Except Unit CompanyBase := do
  let d ← company.getF "$"
  let w ← company.getF "Website"
  let e ← company.getF "Email"
  let cts ← getContacts company
  let adr ← getAddress company
  let phs ← getPhones company
  pure { companyId := d.getFOpt "CompanyID", name := d.getFOpt "Name",
         url := d.getFOpt "URL", website := w.optIdx0, email := e.optIdx0,
         contacts := cts, address := adr, phones := phs }

/-- The fixed recognized team-role labels, as compared by `includes`. -/
def projectTeamRoles : List JsVal :=
  [.vStr "Architect", .vStr "Engineer", .vStr "Consultant", .vStr "Owner",
   .vStr "Tenant"]

/-- Embeds the role resolution of the non-bidder branch: the `Role`
attribute when truthy, else the Type attribute of the first
classification entry. -/
def resolveRole (company : JsVal) (d : JsVal) : Except Unit JsVal :=
  if (d.getFOpt "Role").truthy then pure (d.getFOpt "Role")
  else classChain company "Type"

/-- Embeds the classification branch of the company loop: a truthy
`BiddingRole` attribute makes a Bidder; otherwise the role resolved from
the `Role` attribute (or, when falsy, the first classification entry's
`Type`) makes a TeamMember when it is a recognized team role; every other
company is dropped. -/
def classifyCompany (company : JsVal) : Except Unit (Option (Bidder ⊕ TeamMember)) := do
  let base ← buildBase company
  let d ← company.getF "$"
  let br := d.getFOpt "BiddingRole"
  if br.truthy then do
    let rank ← classChain company "Rank"
    pure (some (.inl { base := base, role := br, rank := rank }))
  else do
    let role ← resolveRole company d
    if projectTeamRoles.any (fun t => beqVal role t) then
      pure (some (.inr { base := base, role := role }))
    else
      pure none

/-- Classifies each company of the normalized company list in order. -/
def classifyList : List JsVal → Except Unit (List (Option (Bidder ⊕ TeamMember)))
  | [] => .ok []
  | c :: cs => do
      let r ← classifyCompany c
      let rs ← classifyList cs
      pure (r :: rs)

/-- Projects a classification onto the bidder bucket. -/
def pickBidder : Option (Bidder ⊕ TeamMember) → Option Bidder
  | some (.inl b) => some b
  | _ => none

/-- Projects a classification onto the team bucket. -/
def pickTeam : Option (Bidder ⊕ TeamMember) → Option TeamMember
  | some (.inr t) => some t
  | _ => none

/-- Cleaned project record built by `cleanProjectData`. -/
structure CleanedProject where
  projectId : JsVal
  title : JsVal
  stage : JsVal
  url : JsVal
  updateDate : JsVal
  updateText : JsVal
  prospectiveBidders : List Bidder
  projectTeam : List TeamMember

/-- Embeds the per-project body of `cleanProjectData`: scalar attributes
from the attribute set, then the company loop guarded by
`project.Companies && project.Companies[0].Company`. -/
def cleanProject (project : JsVal) : Except Unit CleanedProject := do
  let d ← project.getF "$"
  let comps ← project.getF "Companies"
  let cls ←
    if comps.truthy then do
      let c0 ← comps.idx0
      let companyV ← c0.getF "Company"
      if companyV.truthy then classifyList (ensureArray companyV)
      else pure []
    else pure []
  pure { projectId := d.getFOpt "ProjectID", title := d.getFOpt "Title",
         stage := d.getFOpt "Stage", url := d.getFOpt "URL",
         updateDate := d.getFOpt "UpdateDate", updateText := d.getFOpt "UpdateText",
         prospectiveBidders := cls.filterMap pickBidder,
         projectTeam := cls.filterMap pickTeam }

/-- Result of `cleanProjectData`: either the untouched input (when the
document has no project container) or the cleaned project list. -/
inductive CleanOut where
  | passthrough (v : JsVal)
  | projects (ps : List CleanedProject)

/-- Cleans each raw project node in order. -/
def cleanProjects : List JsVal → Except Unit (List CleanedProject)
  | [] => .ok []
  | p :: ps => do
      let x ← cleanProject p
      let xs ← cleanProjects ps
      pure (x :: xs)

/-- Embeds `cleanProjectData` from the source: a document whose
`Projects` value is falsy, or whose `Projects.Project` value is falsy, is
returned unchanged; otherwise the normalized project list is cleaned. -/
def cleanProjectData (data : JsVal) : Except Unit CleanOut := do
  let projectsV ← data.getF "Projects"
  if projectsV.truthy = false then pure (.passthrough data)
  else do
    let projV ← projectsV.getF "Project"
    if projV.truthy = false then pure (.passthrough data)
    else do
      let cleaned ← cleanProjects (ensureArray projV)
      pure (.projects cleaned)

/-- Custom-field key on a lead holding the project URL. -/
def urlFieldKey : String := "3fea11727cd0340a9eb1c3d18e0d4d15151fad38"

/-- Custom-field key on a lead holding the current stage. -/
def stageFieldKey : String := "7c1852c27664d1118f75660223a6af9e99d10f2c"

/-- Embeds `Map.prototype.set`: replace the value at an existing key in
place, otherwise append the new entry. -/
def mapSet : List (String × JsVal) → String → JsVal → List (String × JsVal)
  | [], k, v => [(k, v)]
  | (k', v') :: m, k, v =>
      if k' = k then (k, v) :: m else (k', v') :: mapSet m k v

/-- Derives a project's map key: `extractProjectId(p.url)`, kept only
when truthy. -/
def idOf (p : JsVal) : Except Unit (Option String) := do
  let url ← p.getF "url"
  let pid ← extractProjectId url
  pure (if pid.truthy then
          match pid with
          | .vStr i => some i
          | _ => none
        else none)

/-- Embeds the map-building loop of `matchLeadsWithProjects`. -/
def buildMapLoop : List JsVal → List (String × JsVal) → Except Unit (List (String × JsVal))
  | [], m => .ok m
  | p :: ps, m => do
      let i? ← idOf p
      buildMapLoop ps (match i? with
                       | some i => mapSet m i p
                       | none => m)

/-- The match record pushed for each lead whose derived identifier is in
the project map. -/
structure MatchData where
  lead : JsVal
  matchedProject : JsVal
  projectId : String
  pipedriveStage : JsVal
  railwayStage : JsVal
  railwayMappedStage : JsVal
  stageChanged : Bool

/-- Embeds one iteration of the lead loop of `matchLeadsWithProjects`:
a lead with a falsy URL field or no extractable identifier is skipped;
an identifier missing from the map is skipped; otherwise the match record
is built and pushed exactly when the lead stage differs from the
canonicalized project stage. -/
def processLead (m : List (String × JsVal)) (lead : JsVal) :
    Except Unit (Option MatchData) := do
  let url ← lead.getF urlFieldKey
  if url.truthy = false then pure none
  else do
    let pid ← extractProjectId url
    match (if pid.truthy then
             match pid with
             | .vStr i => some i
             | _ => none
           else none) with
    | none => pure none
    | some i =>
        match m.find? (fun kv => kv.1 = i) with
        | none => pure none
        | some kv => do
            let stage ← kv.2.getF "stage"
            let rms := mapProjectStage stage
            let ps ← lead.getF stageFieldKey
            let changed := !(beqVal ps rms)
            pure (if changed then some ⟨lead, kv.2, i, ps, stage, rms, changed⟩
                  else none)

/-- Embeds the lead loop of `matchLeadsWithProjects`, accumulating the
pushed records in encounter order. -/
def matchLoop (m : List (String × JsVal)) :
    List JsVal → List MatchData → Except Unit (List MatchData)
  | [], acc => .ok acc
  | lead :: rest, acc => do
      let r ← processLead m lead
      matchLoop m rest (match r with
                        | some md => acc ++ [md]
                        | none => acc)

/-- Embeds `matchLeadsWithProjects` from the source (final iteration):
build the id-to-project map, then run the lead loop. -/
def matchLeadsWithProjects (leads projects : List JsVal) :
    Except Unit (List MatchData) := do
  let m ← buildMapLoop projects []
  matchLoop m leads []

/-- Recognizes a string value. -/
def isStrV : JsVal → Bool
  | .vStr _ => true
  | _ => false

/-- Recognizes an xml2js attribute set: an object all of whose values are
strings. -/
def isAttrsV : JsVal → Bool
  | .vObj fs => fs.all (fun kv => isStrV kv.2)
  | _ => false

mutual

/-- Recognizes an xml2js element node: an object whose `$` value is an
attribute set, whose `_` value is a string, and whose other values are
nonempty arrays of child nodes. -/
def isNodeV : JsVal → Bool
  | .vObj fs => nodeFieldsOk fs
  | _ => false

/-- All fields of an element node are well-shaped. -/
def nodeFieldsOk : List (String × JsVal) → Bool
  | [] => true
  | (k, v) :: fs => nodeFieldOk k v && nodeFieldsOk fs

/-- One field of an element node is well-shaped. -/
def nodeFieldOk (k : String) (v : JsVal) : Bool :=
  if k = "$" then isAttrsV v
  else if k = "_" then isStrV v
  else elemValOk v

/-- A child-element value is a nonempty array of child nodes, as the
parser produces with its default list behavior. -/
def elemValOk : JsVal → Bool
  | .vArr (x :: xs) => childOk x && childrenOk xs
  | _ => false

/-- All members of a child list are child nodes. -/
def childrenOk : List JsVal → Bool
  | [] => true
  | x :: xs => childOk x && childrenOk xs

/-- A child node is either bare text or an element node. -/
def childOk (v : JsVal) : Bool := isStrV v || isNodeV v

end

/-- All root bindings of a parsed document map tags to child nodes. -/
def docFieldsOk : List (String × JsVal) → Bool
  | [] => true
  | (_, v) :: fs => childOk v && docFieldsOk fs

/-- Recognizes a parsed xml2js document: an object binding each root tag
to its root node. -/
def isDoc : JsVal → Bool
  | .vObj fs => docFieldsOk fs
  | _ => false

mutual

theorem beqVal_refl : ∀ a : JsVal, beqVal a a = true
  | .vUndefined => rfl
  | .vNull => rfl
  | .vBool _ => by simp [beqVal]
  | .vNum _ => by simp [beqVal]
  | .vStr _ => by simp [beqVal]
  | .vArr xs => by simp only [beqVal]; exact beqList_refl xs
  | .vObj fs => by simp only [beqVal]; exact beqFields_refl fs

theorem beqList_refl : ∀ xs : List JsVal, beqList xs xs = true
  | [] => rfl
  | x :: xs => by
      simp only [beqList, Bool.and_eq_true]
      exact ⟨beqVal_refl x, beqList_refl xs⟩

theorem beqFields_refl : ∀ fs : List (String × JsVal), beqFields fs fs = true
  | [] => rfl
  | (_, v) :: fs => by
      simp only [beqFields, Bool.and_eq_true]
      exact ⟨⟨by simp, beqVal_refl v⟩, beqFields_refl fs⟩

end

/-- Structural inequality follows from a false equality test. -/
theorem ne_of_beqVal_false {a b : JsVal} (h : beqVal a b = false) : a ≠ b := by
  intro he
  subst he
  rw [beqVal_refl a] at h
  exact absurd h (by decide)

/-- The alias table of the stage canonicalizer, written out as the spec
lists it: each free-text synonym paired with its canonical code. -/
def aliasTable : List (String × String) :=
  [("Pre-Bid", "Bid Date Set"), ("Bid Date Set", "Bid Date Set"),
   ("Biddate Set", "Bid Date Set"), ("Schematic Design", "Bid Date Set"),
   ("Design Development", "Bid Date Set"),
   ("Open Bid", "OB"), ("SUBBIDS: ASAP", "OB"),
   ("Low Bid Apparent", "LBA"), ("Low Bid / Apparent", "LBA"),
   ("Low Bids Announced", "LBA"),
   ("Post-Bid - General Contractor Award", "AGC"),
   ("Architectural General Contracting", "AGC"),
   ("General Contractor Award", "AGC"),
   ("Post Bid", "PB"),
   ("General Contract", "GC"), ("Construction Underway", "GC"),
   ("Construction Manager", "CM"),
   ("Construction Documents", "CD"), ("Pre-Design", "CD")]

/-- The eight canonical stage codes. -/
def stageCodes : List String :=
  ["Bid Date Set", "OB", "LBA", "AGC", "PB", "GC", "CM", "CD"]

/-- Every stage string either passes through unchanged or lands on one of
the eight canonical codes. -/
theorem mapStageStr_cases (s : String) :
    mapStageStr s = s ∨ mapStageStr s ∈ stageCodes := by
  unfold mapStageStr
  split_ifs <;> simp [stageCodes]

/-- Canonical stage codes and unchanged strings are fixed by a second
application of the table. -/
theorem mapStageStr_idem (s : String) :
    mapStageStr (mapStageStr s) = mapStageStr s := by
  rcases mapStageStr_cases s with h | h
  · rw [h]; exact h
  · simp only [stageCodes, List.mem_cons, List.not_mem_nil, or_false] at h
    rcases h with h | h | h | h | h | h | h | h <;> rw [h] <;> rfl

/-- The stage table never maps a nonempty string to the empty string. -/
theorem mapStageStr_ne_empty {s : String} (h : s ≠ "") : mapStageStr s ≠ "" := by
  rcases mapStageStr_cases s with h2 | h2
  · rw [h2]; exact h
  · simp only [stageCodes, List.mem_cons, List.not_mem_nil, or_false] at h2
    rcases h2 with h2 | h2 | h2 | h2 | h2 | h2 | h2 | h2 <;> rw [h2] <;> decide

/-- Non-string values fall through the canonicalizer unchanged. -/
theorem mapProjectStage_of_ne_str (v : JsVal) (h : ∀ s, v ≠ .vStr s) :
    mapProjectStage v = v := by
  cases v with
  | vStr s => exact absurd rfl (h s)
  | _ => unfold mapProjectStage; split <;> rfl

/-- On a nonempty string the canonicalizer applies the alias table. -/
theorem mapProjectStage_str {s : String} (h : s ≠ "") :
    mapProjectStage (.vStr s) = .vStr (mapStageStr s) := by
  simp [mapProjectStage, JsVal.truthy, h]

/-- C6. canonicalize maps each string of its fixed alias table (exact,
case-sensitive match) to its canonical code and returns every other
input unchanged, including absent inputs: canonicalize "Open Bid" = "OB",
canonicalize "Unknown Stage" = "Unknown Stage", canonicalize absent =
absent. -/
theorem canonicalize_alias_table :
    (∀ p ∈ aliasTable, mapProjectStage (.vStr p.1) = .vStr p.2)
  ∧ (∀ s : String, (∀ p ∈ aliasTable, s ≠ p.1) → mapProjectStage (.vStr s) = .vStr s)
  ∧ (∀ v : JsVal, (∀ s, v ≠ .vStr s) → mapProjectStage v = v)
  ∧ mapProjectStage (.vStr "Open Bid") = .vStr "OB"
  ∧ mapProjectStage (.vStr "Unknown Stage") = .vStr "Unknown Stage"
  ∧ mapProjectStage .vNull = .vNull
  ∧ mapProjectStage .vUndefined = .vUndefined := by
  refine ⟨?_, ?_, mapProjectStage_of_ne_str, rfl, rfl, rfl, rfl⟩
  · intro p hp
    fin_cases hp <;> rfl
  · intro s h
    simp only [aliasTable, List.mem_cons, List.not_mem_nil, or_false,
      forall_eq_or_imp, forall_eq] at h
    obtain ⟨h1, h2, h3, h4, h5, h6, h7, h8, h9, h10, h11, h12, h13, h14,
      h15, h16, h17, h18, h19⟩ := h
    by_cases hs : s = ""
    · subst hs; rfl
    · rw [mapProjectStage_str hs]
      simp [mapStageStr, h1, h2, h3, h4, h5, h6, h7, h8, h9, h10, h11, h12,
        h13, h14, h15, h16, h17, h18, h19]

/-- Witness for C6: the "Open Bid" row is in the table and the fallback
hypothesis holds concretely at "Unknown Stage". -/
theorem canonicalize_alias_table_witness :
    mapProjectStage (.vStr "Open Bid") = .vStr "OB"
    ∧ mapProjectStage (.vStr "Unknown Stage") = .vStr "Unknown Stage" :=
  ⟨canonicalize_alias_table.1 ("Open Bid", "OB") (by simp [aliasTable]),
   canonicalize_alias_table.2.1 "Unknown Stage" (by decide)⟩

/-- C10. canonicalize is idempotent: every value it can return is a fixed
point — each canonical code either maps to itself through the alias table
(as "Bid Date Set" does) or falls through the identity fallback. -/
theorem canonicalize_idempotent (v : JsVal) :
    mapProjectStage (mapProjectStage v) = mapProjectStage v := by
  by_cases hv : ∀ s, v ≠ .vStr s
  · rw [mapProjectStage_of_ne_str v hv, mapProjectStage_of_ne_str v hv]
  · push_neg at hv
    obtain ⟨s, rfl⟩ := hv
    by_cases hs : s = ""
    · subst hs; rfl
    · rw [mapProjectStage_str hs, mapProjectStage_str (mapStageStr_ne_empty hs),
        mapStageStr_idem]

/-- The position-indexed formulation of the regex scan: the first start
position at which the pattern `\/(\d+)\/\d+\/?` matches yields the
result, matching the wording "the first such run's first digit group". -/
def firstRun (l : List Char) : Option (List Char) :=
  (List.range l.length).findSome? (fun i => runAt (l.drop i))

theorem findSome?_cons_eq {α β : Type} (f : α → Option β) (a : α) (l : List α) :
    (a :: l).findSome? f =
      match f a with
      | some b => some b
      | none => l.findSome? f := rfl

theorem findSome?_comp_map {α β γ : Type} (g : α → β) (f : β → Option γ) :
    ∀ l : List α, (l.map g).findSome? f = l.findSome? (fun a => f (g a))
  | [] => rfl
  | a :: l => by
      rw [List.map_cons, findSome?_cons_eq, findSome?_cons_eq]
      cases f (g a) <;> simp [findSome?_comp_map g f l]

/-- The left-to-right scan finds exactly the match at the least start
position. -/
theorem scanId_eq_firstRun : ∀ l : List Char, scanId l = firstRun l
  | [] => rfl
  | c :: cs => by
      unfold scanId firstRun
      rw [List.length_cons, List.range_succ_eq_map, findSome?_cons_eq,
        findSome?_comp_map]
      simp only [List.drop_succ_cons, List.drop_zero]
      cases runAt (c :: cs) <;> simp [scanId_eq_firstRun cs, firstRun]

/-- C7. extractId applied to a string returns the first digit group of
the first `/digits/digits` run, and absent (null) when the pattern does
not occur; an absent input also yields absent; the embedding is a pure
function, hence deterministic. -/
theorem extract_id_first_run :
    (∀ s : String, extractProjectId (.vStr s) =
        .ok (match firstRun s.data with
             | some ds => .vStr (String.mk ds)
             | none => .vNull))
  ∧ extractProjectId (.vStr ".../123/456") = .ok (.vStr "123")
  ∧ extractProjectId .vNull = .ok .vNull
  ∧ extractProjectId .vUndefined = .ok .vNull := by
  refine ⟨?_, rfl, rfl, rfl⟩
  intro s
  by_cases hs : s = ""
  · subst hs; rfl
  · have h : extractProjectId (.vStr s) =
        .ok (match scanId s.data with
             | some ds => .vStr (String.mk ds)
             | none => .vNull) := by
      simp [extractProjectId, JsVal.truthy, hs]
    rw [h, scanId_eq_firstRun]

/-- Reduction of bind at a success value. -/
theorem ok_bind {α β : Type} (a : α) (f : α → Except Unit β) :
    (Except.ok a >>= f) = f a := rfl

/-- Reduction of bind at a thrown error. -/
theorem error_bind {α β : Type} (f : α → Except Unit β) :
    ((Except.error () : Except Unit α) >>= f) = .error () := rfl

/-- Reduction of pure to a success value. -/
theorem pure_eq_ok {α : Type} (a : α) : (pure a : Except Unit α) = .ok a := rfl

/-- Lookup of a key bound by no field yields undefined. -/
theorem lookupTotal_no_key (fs : List (String × JsVal)) (k : String)
    (h : ∀ kv ∈ fs, kv.1 ≠ k) : JsVal.lookupTotal (.vObj fs) k = .vUndefined := by
  have hf : List.find? (fun kv => decide (kv.1 = k)) fs = none :=
    List.find?_eq_none.mpr (by simpa using h)
  simp [JsVal.lookupTotal, hf]

/-- C9. extract returns its input unchanged, without failing, for every
parsed document that lacks a project container: either the document binds
no Projects key, or its Projects node binds no Project key. -/
theorem extract_passthrough_no_container (fs : List (String × JsVal))
    (h : (∀ kv ∈ fs, kv.1 ≠ "Projects")
       ∨ ∃ gs, JsVal.lookupTotal (.vObj fs) "Projects" = .vObj gs
           ∧ ∀ kv ∈ gs, kv.1 ≠ "Project") :
    cleanProjectData (.vObj fs) = .ok (.passthrough (.vObj fs)) := by
  rcases h with h | ⟨gs, hg, h⟩
  · have h0 : JsVal.lookupTotal (.vObj fs) "Projects" = .vUndefined :=
      lookupTotal_no_key fs _ h
    simp [cleanProjectData, JsVal.getF, JsVal.nullish, h0, JsVal.truthy,
      ok_bind, pure_eq_ok]
  · have h0 : JsVal.lookupTotal (.vObj gs) "Project" = .vUndefined :=
      lookupTotal_no_key gs _ h
    simp [cleanProjectData, JsVal.getF, JsVal.nullish, hg, h0, JsVal.truthy,
      ok_bind, pure_eq_ok]

/-- Witness for C9: a one-field document with no Projects key passes
through unchanged. -/
theorem extract_passthrough_no_container_witness :
    (∀ kv ∈ [("Other", JsVal.vStr "x")], kv.1 ≠ "Projects")
    ∧ cleanProjectData (.vObj [("Other", .vStr "x")]) =
        .ok (.passthrough (.vObj [("Other", .vStr "x")])) :=
  ⟨by decide,
   extract_passthrough_no_container [("Other", .vStr "x")] (Or.inl (by decide))⟩

/-- The project of the spec's reconciliation examples: url deriving
identifier "111" and stage "Pre-Bid". -/
def projPreBid : JsVal :=
  .vObj [("url", .vStr ".../111/1"), ("stage", .vStr "Pre-Bid")]

/-- The lead of the spec's first reconciliation example: same derived
identifier, raw stage field "Pre-Bid". -/
def leadPreBid : JsVal :=
  .vObj [(urlFieldKey, .vStr ".../111/1"), (stageFieldKey, .vStr "Pre-Bid")]

/-- Counterexample to C1: on the claimed input pair the reconciler does
not return the empty list — the lead's raw stage field "Pre-Bid" is
compared against the canonicalized project stage "Bid Date Set", they
differ, and the pairing is included. -/
theorem reconcile_prebid_pair_not_empty :
    matchLeadsWithProjects [leadPreBid] [projPreBid] ≠ .ok [] := by
  have h : matchLeadsWithProjects [leadPreBid] [projPreBid] =
      .ok [{ lead := leadPreBid, matchedProject := projPreBid,
             projectId := "111", pipedriveStage := .vStr "Pre-Bid",
             railwayStage := .vStr "Pre-Bid",
             railwayMappedStage := .vStr "Bid Date Set",
             stageChanged := true }] := rfl
  rw [h]
  intro hc
  simp at hc

/-- C1 amended. For the single project with derived identifier "111" and
stage "Pre-Bid" and the single lead with the same derived identifier and
raw stage field "Pre-Bid", reconcile returns exactly one MatchRecord with
stageChanged = true: the comparison is between the lead's raw field and
the canonicalized project stage "Bid Date Set", so the pairing counts as
differing and is included, not excluded. -/
theorem reconcile_prebid_pair_included :
    matchLeadsWithProjects [leadPreBid] [projPreBid] =
      .ok [{ lead := leadPreBid, matchedProject := projPreBid,
             projectId := "111", pipedriveStage := .vStr "Pre-Bid",
             railwayStage := .vStr "Pre-Bid",
             railwayMappedStage := .vStr "Bid Date Set",
             stageChanged := true }] := rfl

/-- Every record produced by one loop iteration carries its own lead, a
true stage-changed flag computed from a failed equality test against the
canonicalized project stage, and the map entry it matched. -/
theorem processLead_some (m : List (String × JsVal)) (lead : JsVal) (md : MatchData)
    (h : processLead m lead = .ok (some md)) :
    md.lead = lead
    ∧ md.stageChanged = true
    ∧ beqVal md.pipedriveStage md.railwayMappedStage = false
    ∧ md.railwayMappedStage = mapProjectStage md.railwayStage
    ∧ m.find? (fun kv => kv.1 = md.projectId) =
        some (md.projectId, md.matchedProject) := by
  unfold processLead at h
  cases hu : lead.getF urlFieldKey with
  | error e => rw [hu] at h; cases e; rw [error_bind] at h; simp at h
  | ok url =>
    rw [hu, ok_bind] at h
    by_cases ht : url.truthy = false
    · rw [if_pos ht] at h; simp [pure_eq_ok] at h
    · rw [if_neg ht] at h
      cases hp : extractProjectId url with
      | error e => rw [hp] at h; cases e; rw [error_bind] at h; simp at h
      | ok pid =>
        rw [hp, ok_bind] at h
        cases hk : (if pid.truthy then
                      match pid with
                      | .vStr i => some i
                      | _ => none
                    else none) with
        | none => rw [hk] at h; simp [pure_eq_ok] at h
        | some i =>
          rw [hk] at h
          simp only [] at h
          cases hf : m.find? (fun kv => kv.1 = i) with
          | none => rw [hf] at h; simp [pure_eq_ok] at h
          | some kv =>
            rw [hf] at h
            simp only [] at h
            cases hs : kv.2.getF "stage" with
            | error e => rw [hs] at h; cases e; rw [error_bind] at h; simp at h
            | ok stage =>
              rw [hs, ok_bind] at h
              cases hps : lead.getF stageFieldKey with
              | error e => rw [hps] at h; cases e; rw [error_bind] at h; simp at h
              | ok ps =>
                rw [hps, ok_bind] at h
                by_cases hc : (!(beqVal ps (mapProjectStage stage))) = true
                · rw [if_pos hc] at h
                  rw [pure_eq_ok] at h
                  injection h with h
                  injection h with h
                  subst h
                  have hkv : kv.1 = i := by
                    have := List.find?_some hf
                    simpa using this
                  refine ⟨rfl, hc, ?_, rfl, ?_⟩
                  · simpa using hc
                  · show m.find? (fun kv2 => kv2.1 = i) = some (i, kv.2)
                    rw [hf, ← hkv]
                · rw [if_neg hc] at h; simp [pure_eq_ok] at h

/-- Every record in the loop output was already accumulated or is the
successful product of its own lead's iteration. -/
theorem matchLoop_mem (m : List (String × JsVal)) :
    ∀ (leads : List JsVal) (acc ms : List MatchData),
      matchLoop m leads acc = .ok ms → ∀ md ∈ ms,
        md ∈ acc ∨ processLead m md.lead = .ok (some md)
  | [], acc, ms, h, md, hmd => by
      simp only [matchLoop] at h
      injection h with h
      subst h
      exact Or.inl hmd
  | lead :: rest, acc, ms, h, md, hmd => by
      simp only [matchLoop] at h
      cases hr : processLead m lead with
      | error e => rw [hr] at h; cases e; rw [error_bind] at h; simp at h
      | ok r =>
          rw [hr, ok_bind] at h
          have ih := matchLoop_mem m rest _ ms h md hmd
          cases r with
          | none => exact ih
          | some md' =>
              rcases ih with hin | hp
              · rcases List.mem_append.mp hin with hin | hin
                · exact Or.inl hin
                · have he : md = md' := by simpa using hin
                  subst he
                  have hl : md.lead = lead := (processLead_some m lead md hr).1
                  rw [hl]
                  exact Or.inr hr
              · exact Or.inr hp

/-- The lead of the spec's second reconciliation example: derived
identifier "111", raw stage field "Something Else". -/
def leadSomethingElse : JsVal :=
  .vObj [(urlFieldKey, .vStr ".../111/1"), (stageFieldKey, .vStr "Something Else")]

/-- C2. Every MatchRecord returned by reconcile has stageChanged = true
and a raw lead stage differing from the canonicalized project stage (so
a matched lead whose raw stage equals the canonicalized stage never
appears); concretely, the "Pre-Bid" project matched with a
"Something Else" lead yields exactly one record with stageChanged = true
and railwayMappedStage = "Bid Date Set". -/
theorem reconcile_returns_only_stage_changed :
    (∀ (leads projects : List JsVal) (ms : List MatchData),
        matchLeadsWithProjects leads projects = .ok ms →
        ∀ md ∈ ms, md.stageChanged = true
          ∧ md.pipedriveStage ≠ md.railwayMappedStage)
  ∧ matchLeadsWithProjects [leadSomethingElse] [projPreBid] =
      .ok [{ lead := leadSomethingElse, matchedProject := projPreBid,
             projectId := "111", pipedriveStage := .vStr "Something Else",
             railwayStage := .vStr "Pre-Bid",
             railwayMappedStage := .vStr "Bid Date Set",
             stageChanged := true }] := by
  refine ⟨?_, rfl⟩
  intro leads projects ms h md hmd
  unfold matchLeadsWithProjects at h
  cases hb : buildMapLoop projects [] with
  | error e => rw [hb] at h; cases e; rw [error_bind] at h; simp at h
  | ok m =>
      rw [hb, ok_bind] at h
      rcases matchLoop_mem m leads [] ms h md hmd with hin | hp
      · simp at hin
      · obtain ⟨_, hchanged, hbeq, _, _⟩ := processLead_some m md.lead md hp
        exact ⟨hchanged, ne_of_beqVal_false hbeq⟩

/-- Witness for C2: the concrete "Something Else" run produces a
nonempty output on which the universal part holds. -/
theorem reconcile_returns_only_stage_changed_witness :
    ∃ ms, matchLeadsWithProjects [leadSomethingElse] [projPreBid] = .ok ms
      ∧ ms ≠ []
      ∧ ∀ md ∈ ms, md.stageChanged = true
          ∧ md.pipedriveStage ≠ md.railwayMappedStage :=
  ⟨[{ lead := leadSomethingElse, matchedProject := projPreBid,
      projectId := "111", pipedriveStage := .vStr "Something Else",
      railwayStage := .vStr "Pre-Bid",
      railwayMappedStage := .vStr "Bid Date Set", stageChanged := true }],
   rfl, by simp,
   fun md hmd => reconcile_returns_only_stage_changed.1
     [leadSomethingElse] [projPreBid] _
     reconcile_returns_only_stage_changed.2 md hmd⟩

/-- Setting a key makes it the one found afterwards, with the new value. -/
theorem mapSet_find_self : ∀ (m : List (String × JsVal)) (k : String) (v : JsVal),
    (mapSet m k v).find? (fun kv => kv.1 = k) = some (k, v)
  | [], k, v => by simp [mapSet]
  | (k', v') :: m, k, v => by
      by_cases hk : k' = k
      · simp [mapSet, hk]
      · simp [mapSet, hk, mapSet_find_self m k v]

/-- Setting one key leaves lookups of every other key unchanged. -/
theorem mapSet_find_ne (k' k : String) (hne : k' ≠ k) :
    ∀ (m : List (String × JsVal)) (v : JsVal),
      (mapSet m k v).find? (fun kv => kv.1 = k') = m.find? (fun kv => kv.1 = k')
  | [], v => by simp [mapSet, Ne.symm hne]
  | (k2, v2) :: m, v => by
      by_cases hk : k2 = k
      · subst hk
        simp [mapSet, List.find?_cons, Ne.symm hne]
      · by_cases hk2 : k2 = k'
        · simp [mapSet, List.find?_cons, hk, hk2, hne]
        · simp [mapSet, List.find?_cons, hk, hk2, mapSet_find_ne k' k hne m v]

/-- The map-building loop splits along list append. -/
theorem buildMapLoop_append (l1 l2 : List JsVal) (m : List (String × JsVal)) :
    buildMapLoop (l1 ++ l2) m =
      match buildMapLoop l1 m with
      | .ok m1 => buildMapLoop l2 m1
      | .error e => .error e := by
  induction l1 generalizing m with
  | nil => simp [buildMapLoop]
  | cons p l1 ih =>
      simp only [List.cons_append, buildMapLoop]
      cases hi : idOf p with
      | error e => cases e; simp [error_bind]
      | ok i? => simp [ok_bind, ih]

/-- The map-building loop succeeds when every project's identifier
derivation succeeds. -/
theorem buildMapLoop_isOk : ∀ (l : List JsVal) (m : List (String × JsVal)),
    (∀ q ∈ l, (idOf q).isOk = true) → ∃ m2, buildMapLoop l m = .ok m2
  | [], m, _ => ⟨m, rfl⟩
  | p :: l, m, hok => by
      cases hi : idOf p with
      | error e =>
          have hp := hok p (by simp)
          rw [hi] at hp
          simp [Except.isOk, Except.toBool] at hp
      | ok i? =>
          simp only [buildMapLoop, hi, ok_bind]
          exact buildMapLoop_isOk l _ (fun q hq => hok q (by simp [hq]))

/-- Processing projects that do not carry the key leaves its lookup
unchanged. -/
theorem buildMapLoop_find_preserve (k : String) :
    ∀ (l : List JsVal) (m m2 : List (String × JsVal)),
      (∀ q ∈ l, idOf q ≠ .ok (some k)) →
      buildMapLoop l m = .ok m2 →
      m2.find? (fun kv => kv.1 = k) = m.find? (fun kv => kv.1 = k)
  | [], m, m2, _, h => by
      simp only [buildMapLoop] at h
      injection h with h
      subst h
      rfl
  | q :: l, m, m2, hne, h => by
      simp only [buildMapLoop] at h
      cases hi : idOf q with
      | error e => rw [hi] at h; cases e; rw [error_bind] at h; simp at h
      | ok i? =>
          rw [hi, ok_bind] at h
          cases i? with
          | none =>
              exact buildMapLoop_find_preserve k l m m2
                (fun q2 hq => hne q2 (by simp [hq])) h
          | some i =>
              have hik : k ≠ i := by
                intro he
                subst he
                exact hne q (by simp) hi
              have hrec := buildMapLoop_find_preserve k l (mapSet m i q) m2
                (fun q2 hq => hne q2 (by simp [hq])) h
              rw [hrec, mapSet_find_ne k i hik m q]

/-- C3. When several projects derive the same identifier, the lookup
built by reconcile keeps the one occurring last in input order, without
any error, and every MatchRecord for a lead with that identifier carries
that last project. -/
theorem reconcile_last_project_wins
    (l1 l2 leads : List JsVal) (p1 p2 : JsVal) (k : String)
    (h1 : p1 ∈ l1) (hid1 : idOf p1 = .ok (some k))
    (hid2 : idOf p2 = .ok (some k))
    (hl2 : ∀ q ∈ l2, idOf q ≠ .ok (some k))
    (hok : ∀ q ∈ l1 ++ l2, (idOf q).isOk = true) :
    ∃ m, buildMapLoop (l1 ++ p2 :: l2) [] = .ok m
      ∧ m.find? (fun kv => kv.1 = k) = some (k, p2)
      ∧ ∀ ms, matchLoop m leads [] = .ok ms →
          ∀ md ∈ ms, md.projectId = k → md.matchedProject = p2 := by
  obtain ⟨m1, hm1⟩ := buildMapLoop_isOk l1 []
    (fun q hq => hok q (List.mem_append_left _ hq))
  obtain ⟨m2, hm2⟩ := buildMapLoop_isOk l2 (mapSet m1 k p2)
    (fun q hq => hok q (List.mem_append_right _ hq))
  have hfull : buildMapLoop (l1 ++ p2 :: l2) [] = .ok m2 := by
    rw [buildMapLoop_append, hm1]
    simp only [buildMapLoop, hid2, ok_bind]
    exact hm2
  have hfind2 : m2.find? (fun kv => kv.1 = k) = some (k, p2) := by
    rw [buildMapLoop_find_preserve k l2 _ _ hl2 hm2, mapSet_find_self]
  refine ⟨m2, hfull, hfind2, ?_⟩
  intro ms hms md hmd hpk
  rcases matchLoop_mem m2 leads [] ms hms md hmd with hin | hp
  · simp at hin
  · obtain ⟨_, _, _, _, hfind⟩ := processLead_some m2 md.lead md hp
    rw [hpk, hfind2] at hfind
    have := Option.some.inj hfind
    have h2 := congrArg Prod.snd this
    exact h2.symm

/-- Two projects sharing the derived identifier "9" and a lead carrying
it, used to witness the last-wins behavior. -/
def projOld : JsVal := .vObj [("url", .vStr "/9/1"), ("stage", .vStr "Post Bid")]

/-- The later project sharing identifier "9". -/
def projNew : JsVal := .vObj [("url", .vStr "/9/2"), ("stage", .vStr "Open Bid")]

/-- A lead whose URL field also derives identifier "9". -/
def leadNine : JsVal :=
  .vObj [(urlFieldKey, .vStr "/9/3"), (stageFieldKey, .vStr "PB")]

/-- Witness for C3: with the two concrete projects sharing identifier
"9", the map keeps the later one and reconciliation reflects it. -/
theorem reconcile_last_project_wins_witness :
    (projOld ∈ [projOld] ∧ idOf projOld = .ok (some "9")
      ∧ idOf projNew = .ok (some "9"))
    ∧ ∃ m, buildMapLoop ([projOld] ++ projNew :: []) [] = .ok m
        ∧ m.find? (fun kv => kv.1 = "9") = some ("9", projNew)
        ∧ ∀ ms, matchLoop m [leadNine] [] = .ok ms →
            ∀ md ∈ ms, md.projectId = "9" → md.matchedProject = projNew :=
  ⟨⟨by simp, rfl, rfl⟩,
   reconcile_last_project_wins [projOld] [] [leadNine] projOld projNew "9"
     (by simp) rfl rfl (by simp)
     (by
       intro q hq
       simp at hq
       subst hq
       rfl)⟩

/-- A successful plain access pins down the base as non-nullish and the
result as the total lookup. -/
theorem getF_ok_elim {v : JsVal} {k : String} {w : JsVal}
    (h : v.getF k = .ok w) : v.nullish = false ∧ w = v.lookupTotal k := by
  by_cases hx : v.nullish
  · rw [JsVal.getF, if_pos hx] at h
    cases h
  · rw [JsVal.getF, if_neg hx] at h
    exact ⟨by simpa using hx, (Except.ok.inj h).symm⟩

/-- Optional lookup of a key that no attribute object binds is falsy,
whatever the attribute value's shape. -/
theorem getFOpt_falsy_of_no_key (d : JsVal) (k : String)
    (h : ∀ fsa, d = .vObj fsa → ∀ kv ∈ fsa, kv.1 ≠ k) :
    (d.getFOpt k).truthy = false := by
  cases d with
  | vObj fsa =>
      have h3 := lookupTotal_no_key fsa k (h fsa rfl)
      simp [JsVal.getFOpt, JsVal.nullish, h3, JsVal.truthy]
  | vUndefined => rfl
  | vNull => rfl
  | vBool b => rfl
  | vNum n => rfl
  | vStr s => rfl
  | vArr xs => rfl

/-- C8. For every company node, the extracted contact list keeps only
contacts with a truthy name in their input order (a sublist of the
cleaned raw list), so every contact node lacking a Name attribute — whose
cleaned form has a falsy name — is absent from the output. -/
theorem contacts_nameless_dropped_order_kept :
    (∀ (c : JsVal) (out : List Contact), getContacts c = .ok out →
      ∃ cv all, c.getF "Contacts" = .ok cv
        ∧ cleanContacts (ensureArray ((cv.optIdx0).getFOpt "Contact")) = .ok all
        ∧ out = all.filter (fun x => x.name.truthy)
        ∧ out.Sublist all
        ∧ (∀ x ∈ out, x.name.truthy = true)
        ∧ ∀ cc : Contact, cc.name.truthy = false → cc ∉ out)
  ∧ (∀ (r : JsVal) (cc : Contact), cleanContact r = .ok cc →
      (∀ fsa, JsVal.lookupTotal r "$" = .vObj fsa → ∀ kv ∈ fsa, kv.1 ≠ "Name") →
      cc.name.truthy = false) := by
  constructor
  · intro c out h
    unfold getContacts at h
    cases hc : c.getF "Contacts" with
    | error e => rw [hc] at h; cases e; rw [error_bind] at h; simp at h
    | ok cv =>
        rw [hc, ok_bind] at h
        cases ha : cleanContacts (ensureArray ((cv.optIdx0).getFOpt "Contact")) with
        | error e => rw [ha] at h; cases e; rw [error_bind] at h; simp at h
        | ok all =>
            rw [ha, ok_bind, pure_eq_ok] at h
            injection h with h
            subst h
            refine ⟨cv, all, rfl, ha, rfl, List.filter_sublist _, ?_, ?_⟩
            · intro x hx
              exact (List.mem_filter.mp hx).2
            · intro cc hf hcc
              have h2 := (List.mem_filter.mp hcc).2
              rw [hf] at h2
              exact absurd h2 (by decide)
  · intro r cc h hn
    unfold cleanContact at h
    cases hr : r.getF "$" with
    | error e => rw [hr] at h; cases e; rw [error_bind] at h; simp at h
    | ok d =>
        obtain ⟨hnn, hd⟩ := getF_ok_elim hr
        rw [hr, ok_bind] at h
        simp only [JsVal.getF, hnn, Bool.false_eq_true, if_false, ok_bind,
          pure_eq_ok] at h
        injection h with h
        subst h
        exact getFOpt_falsy_of_no_key d "Name" (by rw [hd]; exact hn)

/-- A company node with three contacts, the middle one lacking a Name
attribute. -/
def companyContacts : JsVal :=
  .vObj [("$", .vObj []),
    ("Contacts", .vArr [.vObj [("Contact", .vArr [
      .vObj [("$", .vObj [("Name", .vStr "A"), ("ContactID", .vStr "1")])],
      .vObj [("$", .vObj [("ContactID", .vStr "2")])],
      .vObj [("$", .vObj [("Name", .vStr "B"), ("ContactID", .vStr "3")])]])]])]

/-- Witness for C8: the concrete three-contact company keeps contacts
"A" and "B" in order and drops the nameless one. -/
theorem contacts_nameless_dropped_order_kept_witness :
    ∃ out, getContacts companyContacts = .ok out
      ∧ ∃ cv all, companyContacts.getF "Contacts" = .ok cv
          ∧ cleanContacts (ensureArray ((cv.optIdx0).getFOpt "Contact")) = .ok all
          ∧ out = all.filter (fun x => x.name.truthy)
          ∧ out.Sublist all
          ∧ (∀ x ∈ out, x.name.truthy = true)
          ∧ ∀ cc : Contact, cc.name.truthy = false → cc ∉ out :=
  ⟨_, rfl, contacts_nameless_dropped_order_kept.1 companyContacts _ rfl⟩

/-- The bidding-role attribute value of a company node, as the
classification branch reads it. -/
def biddingRoleOf (c : JsVal) : JsVal :=
  (c.lookupTotal "$").getFOpt "BiddingRole"

/-- The role fallback read from the first classification entry's Type
attribute. -/
def typeFallbackOf (c : JsVal) : JsVal :=
  (((((c.lookupTotal "ClassificationTypes").optIdx0).getFOpt
      "ClassificationType").optIdx0).getFOpt "$").getFOpt "Type"

/-- The resolved role label of a company without a truthy bidding role:
the Role attribute when truthy, else the classification Type fallback. -/
def resolvedRoleOf (c : JsVal) : JsVal :=
  if ((c.lookupTotal "$").getFOpt "Role").truthy then
    (c.lookupTotal "$").getFOpt "Role"
  else typeFallbackOf c

/-- A company node does carry an attribute exactly when its attribute set
binds the key. -/
def hasAttr (c : JsVal) (k : String) : Bool :=
  match c.lookupTotal "$" with
  | .vObj fsa => fsa.any (fun kv => kv.1 = k)
  | _ => false

/-- A company node that carries a BiddingRole attribute (with the empty
string as value) together with a Role attribute "Owner". -/
def companyEmptyBiddingRole : JsVal :=
  .vObj [("$", .vObj [("BiddingRole", .vStr ""), ("Role", .vStr "Owner")])]

/-- Counterexample to C5: this company node carries a bidding-role
attribute, yet classification places it in the project team, not among
the prospective bidders — the code tests the attribute's truthiness, and
the empty string is falsy. -/
theorem bidding_attr_company_lands_in_team :
    hasAttr companyEmptyBiddingRole "BiddingRole" = true
    ∧ ∃ t, classifyCompany companyEmptyBiddingRole = .ok (some (.inr t))
        ∧ t.role = .vStr "Owner" :=
  ⟨rfl, ⟨_, rfl, rfl⟩⟩

/-- The classChain read is total once the company is non-nullish, and
computes the optional-chain lookup. -/
theorem classChain_of_ok (c : JsVal) (hnn : c.nullish = false) (attr : String) :
    classChain c attr =
      .ok ((((((c.lookupTotal "ClassificationTypes").optIdx0).getFOpt
          "ClassificationType").optIdx0).getFOpt "$").getFOpt attr) := by
  simp [classChain, JsVal.getF, hnn, ok_bind, pure_eq_ok]

/-- An equality test against a string value succeeds exactly on that
value. -/
theorem beqVal_vStr_iff (v : JsVal) (s : String) :
    (beqVal v (.vStr s) = true) ↔ v = .vStr s := by
  cases v <;> simp [beqVal]

/-- The membership test of the team-role allow-list coincides with list
membership. -/
theorem any_teamRole_iff (role : JsVal) :
    (projectTeamRoles.any (fun t => beqVal role t) = true)
      ↔ role ∈ projectTeamRoles := by
  simp [projectTeamRoles, beqVal_vStr_iff]

/-- C5 amended. Each company is classified into exactly one bucket or
dropped: a truthy BiddingRole attribute always yields a Bidder carrying
that role; otherwise a resolved role (truthy Role attribute, else the
Type of the first classification entry) inside the recognized set yields
a TeamMember with that role, and anything else yields neither; a single
classification never populates both buckets. -/
theorem company_classification_exclusive :
    (∀ (company : JsVal) (r : Option (Bidder ⊕ TeamMember)),
       classifyCompany company = .ok r →
       ((biddingRoleOf company).truthy = true →
           ∃ b, r = some (.inl b) ∧ b.role = biddingRoleOf company)
       ∧ ((biddingRoleOf company).truthy = false →
           (resolvedRoleOf company ∈ projectTeamRoles →
               ∃ t, r = some (.inr t) ∧ t.role = resolvedRoleOf company)
           ∧ (resolvedRoleOf company ∉ projectTeamRoles → r = none)))
  ∧ (∀ o : Option (Bidder ⊕ TeamMember), pickBidder o = none ∨ pickTeam o = none) := by
  constructor
  · intro company r h
    unfold classifyCompany at h
    cases hb : buildBase company with
    | error e => rw [hb] at h; cases e; rw [error_bind] at h; simp at h
    | ok base =>
      rw [hb, ok_bind] at h
      cases hd : company.getF "$" with
      | error e => rw [hd] at h; cases e; rw [error_bind] at h; simp at h
      | ok d =>
        obtain ⟨hnn, hdl⟩ := getF_ok_elim hd
        subst hdl
        rw [hd, ok_bind] at h
        by_cases htr : ((company.lookupTotal "$").getFOpt "BiddingRole").truthy = true
        · rw [if_pos htr] at h
          cases hcc : classChain company "Rank" with
          | error e => rw [hcc] at h; cases e; rw [error_bind] at h; simp at h
          | ok rank =>
            rw [hcc, ok_bind, pure_eq_ok] at h
            injection h with h
            subst h
            constructor
            · intro _
              exact ⟨_, rfl, rfl⟩
            · intro hfalse
              have htr2 : (biddingRoleOf company).truthy = true := htr
              rw [htr2] at hfalse
              exact absurd hfalse (by decide)
        · rw [if_neg htr] at h
          have htrf : (biddingRoleOf company).truthy = false := by
            simpa using htr
          have hrole : resolveRole company (company.lookupTotal "$") =
              .ok (resolvedRoleOf company) := by
            unfold resolveRole resolvedRoleOf
            by_cases hr0 : ((company.lookupTotal "$").getFOpt "Role").truthy = true
            · rw [if_pos hr0, if_pos hr0, pure_eq_ok]
            · rw [if_neg hr0, if_neg hr0, classChain_of_ok company hnn]
              rfl
          rw [hrole, ok_bind] at h
          by_cases hmem : (projectTeamRoles.any
              (fun t => beqVal (resolvedRoleOf company) t)) = true
          · rw [if_pos hmem, pure_eq_ok] at h
            injection h with h
            subst h
            constructor
            · intro htrue
              rw [htrf] at htrue
              exact absurd htrue (by decide)
            · intro _
              constructor
              · intro _
                exact ⟨_, rfl, rfl⟩
              · intro hnot
                exact absurd ((any_teamRole_iff _).mp hmem) hnot
          · rw [if_neg hmem, pure_eq_ok] at h
            injection h with h
            subst h
            constructor
            · intro htrue
              rw [htrf] at htrue
              exact absurd htrue (by decide)
            · intro _
              constructor
              · intro hin
                exact absurd ((any_teamRole_iff _).mpr hin) hmem
              · intro _
                rfl
  · intro o
    match o with
    | none => exact Or.inl rfl
    | some (.inl b) => exact Or.inr rfl
    | some (.inr t) => exact Or.inl rfl

/-- A company node whose BiddingRole attribute is the truthy string
"GC". -/
def companyTruthyBiddingRole : JsVal :=
  .vObj [("$", .vObj [("BiddingRole", .vStr "GC")])]

/-- Witness for C5: the truthy-BiddingRole company classifies as a
Bidder carrying that role. -/
theorem company_classification_exclusive_witness :
    (biddingRoleOf companyTruthyBiddingRole).truthy = true
    ∧ ∃ r, classifyCompany companyTruthyBiddingRole = .ok r
        ∧ ∃ b, r = some (.inl b) ∧ b.role = biddingRoleOf companyTruthyBiddingRole :=
  ⟨rfl, ⟨_, rfl,
    (company_classification_exclusive.1 companyTruthyBiddingRole _ rfl).1 rfl⟩⟩

/-- Truthy values are never nullish. -/
theorem nullish_of_truthy {v : JsVal} (h : v.truthy = true) :
    v.nullish = false := by
  cases v <;> simp_all [JsVal.truthy, JsVal.nullish]

/-- A child node is a string or an element node. -/
theorem childOk_cases {v : JsVal} (h : childOk v = true) :
    (∃ s, v = .vStr s) ∨ (∃ fs, v = .vObj fs ∧ nodeFieldsOk fs = true) := by
  rw [childOk, Bool.or_eq_true] at h
  rcases h with h | h
  · cases v <;> simp_all [isStrV]
  · cases v <;> simp_all [isNodeV]

/-- Child nodes are never nullish. -/
theorem childOk_nullish {v : JsVal} (h : childOk v = true) :
    v.nullish = false := by
  rcases childOk_cases h with ⟨s, rfl⟩ | ⟨fs, rfl, _⟩ <;> rfl

/-- All members of a well-shaped child list are child nodes. -/
theorem childrenOk_forall : ∀ {l : List JsVal}, childrenOk l = true →
    ∀ y ∈ l, childOk y = true := by
  intro l
  induction l with
  | nil => intro _ y hy; simp at hy
  | cons x xs ih =>
      intro h y hy
      rw [childrenOk, Bool.and_eq_true] at h
      rcases List.mem_cons.mp hy with rfl | hy
      · exact h.1
      · exact ih h.2 y hy

/-- A well-shaped element value is a nonempty array of child nodes. -/
theorem elemValOk_cases {v : JsVal} (h : elemValOk v = true) :
    ∃ x xs, v = .vArr (x :: xs) ∧ ∀ y ∈ x :: xs, childOk y = true := by
  cases v with
  | vArr l =>
      cases l with
      | nil => simp [elemValOk] at h
      | cons x xs =>
          rw [elemValOk, Bool.and_eq_true] at h
          refine ⟨x, xs, rfl, ?_⟩
          intro y hy
          rcases List.mem_cons.mp hy with rfl | hy
          · exact h.1
          · exact childrenOk_forall h.2 y hy
  | vUndefined => simp [elemValOk] at h
  | vNull => simp [elemValOk] at h
  | vBool b => simp [elemValOk] at h
  | vNum n => simp [elemValOk] at h
  | vStr s => simp [elemValOk] at h
  | vObj fs => simp [elemValOk] at h

/-- Lookup on an object headed by one field. -/
theorem lookupTotal_cons (k1 : String) (v1 : JsVal)
    (fs : List (String × JsVal)) (k : String) :
    JsVal.lookupTotal (.vObj ((k1, v1) :: fs)) k =
      if k1 = k then v1 else JsVal.lookupTotal (.vObj fs) k := by
  by_cases h : k1 = k <;> simp [JsVal.lookupTotal, List.find?_cons, h]

/-- Lookup in a well-shaped element node is absent or a well-shaped field
for the key. -/
theorem node_lookup : ∀ (fs : List (String × JsVal)),
    nodeFieldsOk fs = true → ∀ k : String,
    JsVal.lookupTotal (.vObj fs) k = .vUndefined
      ∨ nodeFieldOk k (JsVal.lookupTotal (.vObj fs) k) = true
  | [], _, k => Or.inl rfl
  | (k1, v1) :: fs, h, k => by
      rw [nodeFieldsOk, Bool.and_eq_true] at h
      rw [lookupTotal_cons]
      by_cases hk : k1 = k
      · rw [if_pos hk]
        subst hk
        exact Or.inr h.1
      · rw [if_neg hk]
        exact node_lookup fs h.2 k

/-- Lookup of a non-special key through a child node is absent or a
well-shaped element value. -/
theorem child_lookup_elem {v : JsVal} (hv : childOk v = true) (k : String)
    (hk1 : k ≠ "$") (hk2 : k ≠ "_") :
    JsVal.lookupTotal v k = .vUndefined
      ∨ elemValOk (JsVal.lookupTotal v k) = true := by
  rcases childOk_cases hv with ⟨s, rfl⟩ | ⟨fs, rfl, hfs⟩
  · exact Or.inl rfl
  · rcases node_lookup fs hfs k with h | h
    · exact Or.inl h
    · right
      rw [nodeFieldOk, if_neg hk1, if_neg hk2] at h
      exact h

/-- First-element projection of an absent or well-shaped element value is
absent or a child node. -/
theorem optIdx0_child {w : JsVal}
    (h : w = .vUndefined ∨ elemValOk w = true) :
    w.optIdx0 = .vUndefined ∨ childOk w.optIdx0 = true := by
  rcases h with rfl | h
  · exact Or.inl rfl
  · obtain ⟨x, xs, rfl, hall⟩ := elemValOk_cases h
    right
    exact hall x (by simp)

/-- Optional lookup of a non-special key through an absent value or a
child node is absent or a well-shaped element value. -/
theorem getFOpt_child {x : JsVal}
    (h : x = .vUndefined ∨ childOk x = true) (k : String)
    (hk1 : k ≠ "$") (hk2 : k ≠ "_") :
    x.getFOpt k = .vUndefined ∨ elemValOk (x.getFOpt k) = true := by
  rcases h with rfl | h
  · exact Or.inl rfl
  · have hnn := childOk_nullish h
    rw [JsVal.getFOpt, if_neg (by simp [hnn])]
    exact child_lookup_elem h k hk1 hk2

/-- The doubly nested element chain used for contacts, phones and
companies: the extracted collection value is absent or a well-shaped
element value. -/
theorem child_chain_elem {c : JsVal} (hc : childOk c = true)
    (k1 k2 : String) (h11 : k1 ≠ "$") (h12 : k1 ≠ "_")
    (h21 : k2 ≠ "$") (h22 : k2 ≠ "_") :
    ((JsVal.lookupTotal c k1).optIdx0).getFOpt k2 = .vUndefined
      ∨ elemValOk (((JsVal.lookupTotal c k1).optIdx0).getFOpt k2) = true :=
  getFOpt_child (optIdx0_child (child_lookup_elem hc k1 h11 h12)) k2 h21 h22

/-- Every member of the coerced list of an absent or well-shaped element
value is a child node, hence not nullish. -/
theorem ensureArray_elem_nullish {v : JsVal}
    (h : v = .vUndefined ∨ elemValOk v = true) :
    ∀ x ∈ ensureArray v, x.nullish = false := by
  rcases h with rfl | h
  · intro x hx; simp [ensureArray, JsVal.truthy] at hx
  · obtain ⟨y, ys, rfl, hall⟩ := elemValOk_cases h
    intro x hx
    rw [ensureArray] at hx
    simp only [JsVal.truthy] at hx
    exact childOk_nullish (hall x (by simpa using hx))

/-- Success is equivalent to producing some value. -/
theorem isOk_iff {α : Type} (e : Except Unit α) :
    e.isOk = true ↔ ∃ x, e = .ok x := by
  cases e <;> simp [Except.isOk, Except.toBool]

/-- A plain access on a non-nullish base succeeds with the total lookup. -/
theorem getF_ok {v : JsVal} (h : v.nullish = false) (k : String) :
    v.getF k = .ok (v.lookupTotal k) := by
  rw [JsVal.getF, if_neg (by simp [h])]

/-- Contact cleaning succeeds on every non-nullish contact node. -/
theorem cleanContact_ok {c : JsVal} (h : c.nullish = false) :
    ∃ x, cleanContact c = .ok x :=
  ⟨_, by
    unfold cleanContact
    rw [getF_ok h, ok_bind, getF_ok h, ok_bind, getF_ok h, ok_bind,
      getF_ok h, ok_bind, pure_eq_ok]⟩

/-- Contact-list cleaning succeeds when every raw entry is non-nullish. -/
theorem cleanContacts_ok : ∀ (l : List JsVal),
    (∀ x ∈ l, x.nullish = false) → ∃ out, cleanContacts l = .ok out
  | [], _ => ⟨[], rfl⟩
  | c :: cs, h => by
      obtain ⟨x, hx⟩ := cleanContact_ok (h c (by simp))
      obtain ⟨out, hout⟩ := cleanContacts_ok cs (fun y hy => h y (by simp [hy]))
      exact ⟨x :: out,
        by rw [cleanContacts, hx, ok_bind, hout, ok_bind, pure_eq_ok]⟩

/-- Contact extraction succeeds on every child node. -/
theorem getContacts_ok {c : JsVal} (hc : childOk c = true) :
    ∃ out, getContacts c = .ok out := by
  have hnn := childOk_nullish hc
  have hsrc := child_chain_elem hc "Contacts" "Contact"
    (by decide) (by decide) (by decide) (by decide)
  obtain ⟨all, hall⟩ := cleanContacts_ok _ (ensureArray_elem_nullish hsrc)
  exact ⟨_, by
    unfold getContacts
    rw [getF_ok hnn, ok_bind, hall, ok_bind, pure_eq_ok]⟩

/-- Address extraction succeeds on every non-nullish company node: a
falsy first entry produces no address, a truthy one is necessarily
non-nullish. -/
theorem getAddress_ok {c : JsVal} (hnn : c.nullish = false) :
    ∃ out, getAddress c = .ok out := by
  unfold getAddress
  rw [getF_ok hnn, ok_bind]
  set a := (ensureArray
    (((c.lookupTotal "Addresses").optIdx0).getFOpt "Address")).headD .vUndefined with ha
  by_cases ht : a.truthy = false
  · rw [if_pos ht, pure_eq_ok]
    exact ⟨_, rfl⟩
  · rw [if_neg ht]
    have hann : a.nullish = false := nullish_of_truthy (by simpa using ht)
    rw [getF_ok hann, ok_bind, getF_ok hann, ok_bind, getF_ok hann, ok_bind,
      getF_ok hann, ok_bind, getF_ok hann, ok_bind, getF_ok hann, ok_bind,
      getF_ok hann, ok_bind, pure_eq_ok]
    exact ⟨_, rfl⟩

/-- Phone-list cleaning succeeds when every raw entry is non-nullish. -/
theorem cleanPhones_ok : ∀ (l : List JsVal),
    (∀ x ∈ l, x.nullish = false) → ∃ out, cleanPhones l = .ok out
  | [], _ => ⟨[], rfl⟩
  | p :: ps, h => by
      have hp := h p (by simp)
      obtain ⟨out, hout⟩ := cleanPhones_ok ps (fun y hy => h y (by simp [hy]))
      exact ⟨_, by
        rw [cleanPhones, getF_ok hp, ok_bind, getF_ok hp, ok_bind, hout,
          ok_bind, pure_eq_ok]⟩

/-- Phone extraction succeeds on every child node. -/
theorem getPhones_ok {c : JsVal} (hc : childOk c = true) :
    ∃ out, getPhones c = .ok out := by
  have hnn := childOk_nullish hc
  have hsrc := child_chain_elem hc "Phones" "Phone"
    (by decide) (by decide) (by decide) (by decide)
  obtain ⟨out, hout⟩ := cleanPhones_ok _ (ensureArray_elem_nullish hsrc)
  exact ⟨_, by
    unfold getPhones
    rw [getF_ok hnn, ok_bind, hout]⟩

/-- The base company object is built successfully on every child node. -/
theorem buildBase_ok {c : JsVal} (hc : childOk c = true) :
    ∃ base, buildBase c = .ok base := by
  have hnn := childOk_nullish hc
  obtain ⟨cts, hcts⟩ := getContacts_ok hc
  obtain ⟨adr, hadr⟩ := getAddress_ok hnn
  obtain ⟨phs, hphs⟩ := getPhones_ok hc
  exact ⟨_, by
    unfold buildBase
    rw [getF_ok hnn, ok_bind, getF_ok hnn, ok_bind, getF_ok hnn, ok_bind,
      hcts, ok_bind, hadr, ok_bind, hphs, ok_bind, pure_eq_ok]⟩

/-- Classification succeeds on every child node. -/
theorem classifyCompany_ok {c : JsVal} (hc : childOk c = true) :
    ∃ r, classifyCompany c = .ok r := by
  have hnn := childOk_nullish hc
  obtain ⟨base, hbase⟩ := buildBase_ok hc
  unfold classifyCompany
  rw [hbase, ok_bind, getF_ok hnn, ok_bind]
  by_cases hbr : ((c.lookupTotal "$").getFOpt "BiddingRole").truthy = true
  · rw [if_pos hbr, classChain_of_ok c hnn, ok_bind, pure_eq_ok]
    exact ⟨_, rfl⟩
  · rw [if_neg hbr]
    unfold resolveRole
    by_cases hr0 : ((c.lookupTotal "$").getFOpt "Role").truthy = true
    · rw [if_pos hr0, pure_eq_ok, ok_bind]
      by_cases hmem : (projectTeamRoles.any
          (fun t => beqVal ((c.lookupTotal "$").getFOpt "Role") t)) = true
      · rw [if_pos hmem, pure_eq_ok]; exact ⟨_, rfl⟩
      · rw [if_neg hmem, pure_eq_ok]; exact ⟨_, rfl⟩
    · rw [if_neg hr0, classChain_of_ok c hnn, ok_bind]
      by_cases hmem : (projectTeamRoles.any (fun t => beqVal
          ((((((c.lookupTotal "ClassificationTypes").optIdx0).getFOpt
            "ClassificationType").optIdx0).getFOpt "$").getFOpt "Type") t)) = true
      · rw [if_pos hmem, pure_eq_ok]; exact ⟨_, rfl⟩
      · rw [if_neg hmem, pure_eq_ok]; exact ⟨_, rfl⟩

/-- Classifying a list succeeds when every company is a child node. -/
theorem classifyList_ok : ∀ (l : List JsVal),
    (∀ x ∈ l, childOk x = true) → ∃ out, classifyList l = .ok out
  | [], _ => ⟨[], rfl⟩
  | c :: cs, h => by
      obtain ⟨r, hr⟩ := classifyCompany_ok (h c (by simp))
      obtain ⟨out, hout⟩ := classifyList_ok cs (fun y hy => h y (by simp [hy]))
      exact ⟨_, by rw [classifyList, hr, ok_bind, hout, ok_bind, pure_eq_ok]⟩

/-- Cleaning a single project succeeds on every child node: the
Companies guard only enters the loop for a nonempty well-shaped child
array. -/
theorem cleanProject_ok {p : JsVal} (hp : childOk p = true) :
    ∃ cp, cleanProject p = .ok cp := by
  have hnn := childOk_nullish hp
  unfold cleanProject
  rw [getF_ok hnn, ok_bind, getF_ok hnn, ok_bind]
  rcases child_lookup_elem hp "Companies" (by decide) (by decide) with hcomp | hcomp
  · rw [hcomp]
    exact ⟨_, rfl⟩
  · obtain ⟨x, xs, heq, hall⟩ := elemValOk_cases hcomp
    rw [heq, if_pos (show (JsVal.truthy (.vArr (x :: xs)) = true) from rfl)]
    have hx : childOk x = true := hall x (by simp)
    have h0 : JsVal.idx0 (.vArr (x :: xs)) = .ok x := rfl
    rw [h0, ok_bind, getF_ok (childOk_nullish hx), ok_bind]
    rcases child_lookup_elem hx "Company" (by decide) (by decide) with hcv | hcv
    · rw [hcv]
      exact ⟨_, rfl⟩
    · obtain ⟨y, ys, heq2, hall2⟩ := elemValOk_cases hcv
      rw [heq2, if_pos (show (JsVal.truthy (.vArr (y :: ys)) = true) from rfl)]
      have hens : ensureArray (.vArr (y :: ys)) = y :: ys := by
        simp [ensureArray, JsVal.truthy]
      rw [hens]
      obtain ⟨cls, hcls⟩ := classifyList_ok (y :: ys) hall2
      rw [hcls, ok_bind]
      exact ⟨_, rfl⟩

/-- Cleaning a project list succeeds when every entry is a child node. -/
theorem cleanProjects_ok : ∀ (l : List JsVal),
    (∀ x ∈ l, childOk x = true) → ∃ out, cleanProjects l = .ok out
  | [], _ => ⟨[], rfl⟩
  | p :: ps, h => by
      obtain ⟨cp, hcp⟩ := cleanProject_ok (h p (by simp))
      obtain ⟨out, hout⟩ := cleanProjects_ok ps (fun y hy => h y (by simp [hy]))
      exact ⟨_, by rw [cleanProjects, hcp, ok_bind, hout, ok_bind, pure_eq_ok]⟩

/-- Lookup in a well-shaped parsed document is absent or a child node. -/
theorem doc_lookup : ∀ (fs : List (String × JsVal)),
    docFieldsOk fs = true → ∀ k : String,
    JsVal.lookupTotal (.vObj fs) k = .vUndefined
      ∨ childOk (JsVal.lookupTotal (.vObj fs) k) = true
  | [], _, k => Or.inl rfl
  | (k1, v1) :: fs, h, k => by
      rw [docFieldsOk, Bool.and_eq_true] at h
      rw [lookupTotal_cons]
      by_cases hk : k1 = k
      · rw [if_pos hk]
        exact Or.inr h.1
      · rw [if_neg hk]
        exact doc_lookup fs h.2 k

/-- Extraction succeeds on every well-shaped parsed document. -/
theorem cleanProjectData_ok {d : JsVal} (hd : isDoc d = true) :
    ∃ out, cleanProjectData d = .ok out := by
  cases d with
  | vObj fs =>
    have hfs : docFieldsOk fs = true := by simpa [isDoc] using hd
    unfold cleanProjectData
    rw [getF_ok (show JsVal.nullish (.vObj fs) = false from rfl), ok_bind]
    by_cases ht : (JsVal.lookupTotal (.vObj fs) "Projects").truthy = false
    · rw [if_pos ht, pure_eq_ok]
      exact ⟨_, rfl⟩
    · rw [if_neg ht]
      rcases doc_lookup fs hfs "Projects" with hP | hP
      · rw [hP] at ht
        exact absurd rfl ht
      · have hPnn := childOk_nullish hP
        rw [getF_ok hPnn, ok_bind]
        rcases child_lookup_elem hP "Project" (by decide) (by decide) with hPr | hPr
        · rw [hPr]
          exact ⟨_, rfl⟩
        · obtain ⟨x, xs, heq, hall⟩ := elemValOk_cases hPr
          rw [heq, if_neg (show ¬(JsVal.truthy (.vArr (x :: xs)) = false) from
            by simp [JsVal.truthy])]
          have hens : ensureArray (.vArr (x :: xs)) = x :: xs := by
            simp [ensureArray, JsVal.truthy]
          rw [hens]
          obtain ⟨outs, houts⟩ := cleanProjects_ok (x :: xs) hall
          rw [houts, ok_bind]
          exact ⟨_, rfl⟩
  | vUndefined => simp [isDoc] at hd
  | vNull => simp [isDoc] at hd
  | vBool b => simp [isDoc] at hd
  | vNum n => simp [isDoc] at hd
  | vStr s => simp [isDoc] at hd
  | vArr xs => simp [isDoc] at hd

/-- Identifier extraction succeeds on every string or falsy input. -/
theorem extractProjectId_ok {u : JsVal}
    (h : (isStrV u || !u.truthy) = true) : ∃ x, extractProjectId u = .ok x := by
  rw [Bool.or_eq_true] at h
  rcases h with h | h
  · have hs : ∃ s, u = .vStr s := by cases u <;> simp_all [isStrV]
    obtain ⟨s, rfl⟩ := hs
    by_cases he : s = ""
    · subst he
      exact ⟨_, rfl⟩
    · unfold extractProjectId
      rw [if_neg (by simp [JsVal.truthy, he])]
      exact ⟨_, rfl⟩
  · unfold extractProjectId
    rw [if_pos (by simpa using h)]
    exact ⟨_, rfl⟩

/-- Identifier derivation for a project succeeds when the project is
non-nullish and its url field is a string or falsy. -/
theorem idOf_ok {p : JsVal} (hp : p.nullish = false)
    (hurl : (isStrV (p.lookupTotal "url") || !(p.lookupTotal "url").truthy) = true) :
    ∃ i?, idOf p = .ok i? := by
  unfold idOf
  rw [getF_ok hp, ok_bind]
  obtain ⟨x, hx⟩ := extractProjectId_ok hurl
  rw [hx, ok_bind, pure_eq_ok]
  exact ⟨_, rfl⟩

/-- Membership in the map after a set: the new entry or an old one. -/
theorem mapSet_mem : ∀ (m : List (String × JsVal)) (k : String) (v : JsVal)
    (kv : String × JsVal), kv ∈ mapSet m k v → kv = (k, v) ∨ kv ∈ m
  | [], k, v, kv, h => by
      simp [mapSet] at h
      exact Or.inl h
  | (k2, v2) :: m, k, v, kv, h => by
      rw [mapSet] at h
      by_cases hk : k2 = k
      · rw [if_pos hk] at h
        rcases List.mem_cons.mp h with rfl | h
        · exact Or.inl rfl
        · exact Or.inr (List.mem_cons_of_mem _ h)
      · rw [if_neg hk] at h
        rcases List.mem_cons.mp h with rfl | h
        · exact Or.inr (List.mem_cons_self _ _)
        · rcases mapSet_mem m k v kv h with h | h
          · exact Or.inl h
          · exact Or.inr (List.mem_cons_of_mem _ h)

/-- Every value stored in the built map is one of the input projects (or
was already present). -/
theorem buildMapLoop_values : ∀ (l : List JsVal) (m m2 : List (String × JsVal)),
    buildMapLoop l m = .ok m2 → ∀ kv ∈ m2, kv.2 ∈ l ∨ kv ∈ m
  | [], m, m2, h, kv, hkv => by
      simp only [buildMapLoop] at h
      injection h with h
      subst h
      exact Or.inr hkv
  | p :: l, m, m2, h, kv, hkv => by
      simp only [buildMapLoop] at h
      cases hi : idOf p with
      | error e => rw [hi] at h; cases e; rw [error_bind] at h; simp at h
      | ok i? =>
          rw [hi, ok_bind] at h
          cases i? with
          | none =>
              rcases buildMapLoop_values l m m2 h kv hkv with h2 | h2
              · exact Or.inl (by simp [h2])
              · exact Or.inr h2
          | some i =>
              rcases buildMapLoop_values l (mapSet m i p) m2 h kv hkv with h2 | h2
              · exact Or.inl (by simp [h2])
              · rcases mapSet_mem m i p kv h2 with h3 | h3
                · exact Or.inl (by simp [h3])
                · exact Or.inr h3

/-- One lead iteration succeeds when the lead is non-nullish, its URL
field is a string or falsy, and every mapped project is non-nullish. -/
theorem processLead_ok {m : List (String × JsVal)} {lead : JsVal}
    (hl : lead.nullish = false)
    (hurl : (isStrV (lead.lookupTotal urlFieldKey)
        || !(lead.lookupTotal urlFieldKey).truthy) = true)
    (hm : ∀ kv ∈ m, kv.2.nullish = false) :
    ∃ r, processLead m lead = .ok r := by
  unfold processLead
  rw [getF_ok hl, ok_bind]
  by_cases ht : (lead.lookupTotal urlFieldKey).truthy = false
  · rw [if_pos ht, pure_eq_ok]
    exact ⟨_, rfl⟩
  · rw [if_neg ht]
    obtain ⟨pid, hpid⟩ := extractProjectId_ok hurl
    rw [hpid, ok_bind]
    cases hk : (if pid.truthy = true then
                  match pid with
                  | .vStr i => some i
                  | _ => none
                else none) with
    | none =>
        simp only [hk]
        exact ⟨_, rfl⟩
    | some i =>
        simp only [hk]
        cases hf : m.find? (fun kv => kv.1 = i) with
        | none =>
            simp only [hf]
            exact ⟨_, rfl⟩
        | some kv =>
            simp only [hf]
            have hkvn : kv.2.nullish = false :=
              hm kv (List.mem_of_find?_eq_some hf)
            rw [getF_ok hkvn, ok_bind, getF_ok hl, ok_bind, pure_eq_ok]
            exact ⟨_, rfl⟩

/-- The lead loop succeeds under the same conditions. -/
theorem matchLoop_ok : ∀ (leads : List JsVal) (m : List (String × JsVal))
    (acc : List MatchData),
    (∀ l ∈ leads, l.nullish = false
      ∧ (isStrV (l.lookupTotal urlFieldKey)
          || !(l.lookupTotal urlFieldKey).truthy) = true) →
    (∀ kv ∈ m, kv.2.nullish = false) →
    ∃ ms, matchLoop m leads acc = .ok ms
  | [], _, acc, _, _ => ⟨acc, rfl⟩
  | lead :: rest, m, acc, hleads, hm => by
      obtain ⟨r, hr⟩ :=
        processLead_ok (hleads lead (by simp)).1 (hleads lead (by simp)).2 hm
      simp only [matchLoop, hr, ok_bind]
      exact matchLoop_ok rest m _ (fun l hl => hleads l (by simp [hl])) hm

/-- A parsed document whose project node has an empty Companies array:
the array is truthy, its first element is undefined, and the `.Company`
access on it throws. -/
def emptyCompaniesDoc : JsVal :=
  .vObj [("Projects", .vObj [("Project", .vObj [("Companies", .vArr [])])])]

/-- Counterexample to C4: extract throws on a concrete tree of objects
and arrays — the guard `project.Companies && project.Companies[0].Company`
evaluates `[0]` on a truthy empty array and then dereferences undefined. -/
theorem extract_throws_on_empty_companies :
    cleanProjectData emptyCompaniesDoc = .error () := rfl

/-- A parsed document whose Companies[0].Company entry is a single object
rather than a list, handled by the coerce-to-sequence normalization. -/
def singleCompanyDoc : JsVal :=
  .vObj [("Projects", .vObj [
    ("Project", .vArr [.vObj [
      ("$", .vObj [("ProjectID", .vStr "7"), ("Stage", .vStr "Open Bid"),
                   ("URL", .vStr "/7/1")]),
      ("Companies", .vArr [.vObj [
        ("Company", .vObj [("$", .vObj [("CompanyID", .vStr "c1"),
          ("Name", .vStr "Acme"), ("BiddingRole", .vStr "GC")])])
      ]])
    ]])
  ])]

/-- A parsed document in the exact shape the XML parser produces. -/
def wellFormedDoc : JsVal :=
  .vObj [("Projects", .vObj [
    ("Project", .vArr [.vObj [
      ("$", .vObj [("ProjectID", .vStr "7"), ("Stage", .vStr "Open Bid"),
                   ("URL", .vStr "/7/1")]),
      ("Companies", .vArr [.vObj [
        ("Company", .vArr [.vObj [
          ("$", .vObj [("CompanyID", .vStr "c1"), ("Name", .vStr "Acme"),
                       ("BiddingRole", .vStr "GC")]),
          ("Phones", .vArr [.vObj [("$", .vObj [("PhoneType", .vStr "Main")]),
                                   ("_", .vStr "555")]])
        ]])
      ]])
    ]])
  ])]

/-- C4 amended. The canonicalizer is total by construction; extractId
never throws on string or falsy input; extract never throws on any
document of the shape the XML parser produces and coerces a single-object
Company entry to a list; reconcile never throws when every lead and
project is non-nullish with a string-or-absent URL field. (On other
adversarial shapes the functions can throw, as the counterexample
shows.) -/
theorem core_functions_no_throw :
    (∀ d : JsVal, isDoc d = true → (cleanProjectData d).isOk = true)
  ∧ (∀ u : JsVal, (isStrV u || !u.truthy) = true →
      (extractProjectId u).isOk = true)
  ∧ (∀ leads projects : List JsVal,
      (∀ l ∈ leads, l.nullish = false
        ∧ (isStrV (l.lookupTotal urlFieldKey)
            || !(l.lookupTotal urlFieldKey).truthy) = true) →
      (∀ p ∈ projects, p.nullish = false
        ∧ (isStrV (p.lookupTotal "url")
            || !(p.lookupTotal "url").truthy) = true) →
      (matchLeadsWithProjects leads projects).isOk = true)
  ∧ (∃ ps, cleanProjectData singleCompanyDoc = .ok (.projects ps)
      ∧ ps.map (fun p => p.prospectiveBidders.length) = [1]) := by
  refine ⟨?_, ?_, ?_, ⟨_, rfl, rfl⟩⟩
  · intro d hd
    exact (isOk_iff _).mpr (cleanProjectData_ok hd)
  · intro u hu
    exact (isOk_iff _).mpr (extractProjectId_ok hu)
  · intro leads projects hleads hprojects
    have hids : ∀ q ∈ projects, (idOf q).isOk = true := by
      intro q hq
      exact (isOk_iff _).mpr (idOf_ok (hprojects q hq).1 (hprojects q hq).2)
    obtain ⟨m, hm⟩ := buildMapLoop_isOk projects [] hids
    have hvals : ∀ kv ∈ m, kv.2.nullish = false := by
      intro kv hkv
      rcases buildMapLoop_values projects [] m hm kv hkv with h | h
      · exact (hprojects kv.2 h).1
      · simp at h
    obtain ⟨ms, hms⟩ := matchLoop_ok leads m [] hleads hvals
    rw [isOk_iff]
    refine ⟨ms, ?_⟩
    unfold matchLeadsWithProjects
    rw [hm, ok_bind, hms]

/-- Witness for C4: the hypotheses hold at the concrete well-formed
document, at a concrete URL string, and at the concrete lead/project
pair, where success evaluates to true. -/
theorem core_functions_no_throw_witness :
    (isDoc wellFormedDoc = true
      ∧ (cleanProjectData wellFormedDoc).isOk = true)
    ∧ ((isStrV (.vStr "/7/1") || !(JsVal.vStr "/7/1").truthy) = true
      ∧ (extractProjectId (.vStr "/7/1")).isOk = true)
    ∧ (matchLeadsWithProjects [leadPreBid] [projPreBid]).isOk = true := by
  have hdoc : isDoc wellFormedDoc = true := by
    simp [wellFormedDoc, isDoc, docFieldsOk, childOk, isNodeV, nodeFieldsOk,
      nodeFieldOk, elemValOk, childrenOk, isStrV, isAttrsV]
  exact ⟨⟨hdoc, core_functions_no_throw.1 wellFormedDoc hdoc⟩,
    ⟨rfl, core_functions_no_throw.2.1 (.vStr "/7/1") rfl⟩,
    core_functions_no_throw.2.2.1 [leadPreBid] [projPreBid]
      (by decide) (by decide)⟩
